import Mathlib

/-!
Verification of the real-time audio streaming helper of the ear-on-a-cord
repository: the playback scheduler, the session controller lifecycle, the
velocity-to-signal mapper and the prompt throttle, shallowly embedded from
the source of `LiveMusicHelper` and `handleVelocityChange` in `App.tsx`.
Times on the audio hardware clock are modelled as rationals.
-/

namespace EarCord

/-- The fixed pre-roll of the scheduler, `bufferTime = 0.5` in `LiveMusicHelper`. -/
def bufferTime : ℚ := 0.5

/-- The scheduling core of `LiveMusicHelper.processAudioChunks` (App.tsx lines
300-308): given the current `nextStartTime`, the hardware clock time and the
duration of the decoded buffer, return the start time assigned to the buffer
and the updated `nextStartTime`.  The sentinel for an unset clock is `0`, as
in the source (`nextStartTime === 0 || nextStartTime < currentTime`). -/
def scheduleChunk (nextStartTime currentTime duration : ℚ) : ℚ × ℚ :=
  let start := if nextStartTime = 0 ∨ nextStartTime < currentTime
               then currentTime + bufferTime else nextStartTime
  (start, start + duration)

/-- Start times assigned by repeatedly running `scheduleChunk` over a sequence
of chunks, each given as a pair (hardware time at processing, buffer duration). -/
def scheduleTrace (nst : ℚ) : List (ℚ × ℚ) → List ℚ
  | [] => []
  | (t, d) :: rest =>
      (scheduleChunk nst t d).1 :: scheduleTrace (scheduleChunk nst t d).2 rest

/-- The hypothesis of claim C1: every chunk of the sequence is processed while
`nextStartTime` is set (not the `0` sentinel) and not yet in the past relative
to the hardware clock. -/
def onSchedule (nst : ℚ) : List (ℚ × ℚ) → Prop
  | [] => True
  | (t, d) :: rest => nst ≠ 0 ∧ t ≤ nst ∧ onSchedule (nst + d) rest

/-- State of the `LiveMusicHelper` relevant to lifecycle claims: the optional
streaming session handle and the scheduling clock `nextStartTime`. -/
structure HelperState where
  session : Option Nat
  nextStartTime : ℚ
deriving DecidableEq

/-- `LiveMusicHelper.connect` (App.tsx lines 214-237): returns immediately if a
session exists, otherwise opens the streaming session (registering the message
handlers).  The boolean reports whether a session open was issued. -/
def connect (s : HelperState) : HelperState × Bool :=
  if s.session.isSome then (s, false)
  else ({ s with session := some 0 }, true)

/-- `LiveMusicHelper.play` (App.tsx lines 265-271): connects when no session
exists, then requests remote playback; it never touches `nextStartTime`. -/
def play (s : HelperState) : HelperState :=
  (connect s).1

/-- `LiveMusicHelper.stop` (App.tsx lines 277-281): requests remote stop and
resets the scheduling clock to the unset sentinel `0`. -/
def stop (s : HelperState) : HelperState :=
  { s with nextStartTime := 0 }

/-- Total number of session opens issued by a run of `n` consecutive calls to
`connect`. -/
def connectSeq (s : HelperState) : Nat → HelperState × Nat
  | 0 => (s, 0)
  | n + 1 =>
      ((connectSeq (connect s).1 n).1,
        (if (connect s).2 then 1 else 0) + (connectSeq (connect s).1 n).2)

/-- One step of the velocity-to-signal mapper `handleVelocityChange` (App.tsx
lines 67-86): scale the velocity, apply the sweet-spot curve or the decay
branch, then exponentially smooth toward the previous smoothed value. -/
def velocityStep (prev velocity : ℚ) : ℚ :=
  let v := velocity * 10
  let strength :=
    if 0.1 < v ∧ v < 2.5 then
      if 1.5 < v then max 0 (1 - (v - 1.5)) else min 1 (v / 0.5)
    else
      max 0 (prev - 0.015)
  prev + (strength - prev) * 0.1

/-- Successive smoothed signal values produced by a sequence of velocity
samples, starting from the previous smoothed value `prev`. -/
def velocityTrace (prev : ℚ) : List ℚ → List ℚ
  | [] => []
  | w :: ws => velocityStep prev w :: velocityTrace (velocityStep prev w) ws

/-- A gain automation command: the exponential-approach command issued by
`setTargetAtTime(target, startTime, timeConstant)`.  Issuing such a command is
the only thing `LiveMusicHelper.setVolume` does; it never writes the gain
value directly. -/
structure GainRamp where
  target : ℝ
  startTime : ℝ
  timeConstant : ℝ

/-- `LiveMusicHelper.setVolume` (App.tsx lines 242-246): schedules
`setTargetAtTime(val, now, 0.1)` on the output gain, with `now` the current
hardware time.  The value is passed through unclamped. -/
def setVolume (val now : ℝ) : GainRamp :=
  ⟨val, now, 0.1⟩

/-- Modelled from the spec: the realized gain of an exponential-approach
command for times past its start (the ramp semantics of the audio API call
`setTargetAtTime`, described in the spec as a smooth ramp toward the target
with the given time constant): starting from the held gain value `g0`, the
gain approaches the target exponentially. -/
noncomputable def rampGain (r : GainRamp) (g0 t : ℝ) : ℝ :=
  r.target + (g0 - r.target) * Real.exp (-((t - r.startTime) / r.timeConstant))

/-- A weighted steering prompt, the `{ text, weight }` pairs passed to
`setPrompts`. -/
structure WeightedPrompt where
  text : String
  weight : ℚ
deriving DecidableEq

/-- Modelled from the spec: the `throttle` utility imported by
`LiveMusicHelper` from `./throttle` is not in the repository snapshot.  Per
the spec, at most one update is sent per fixed interval `T`, and calls
arriving faster than the interval are coalesced so only the most recent
arguments by the time the throttle window elapses are transmitted.  Input is
the time-ordered list of (call time, argument) pairs; output is the list of
(emission time, argument) emissions, one per window, each carrying the
arguments of the last call inside the window opened by its first call. -/
def throttleEmit (T : ℚ) : List (ℚ × α) → List (ℚ × α)
  | [] => []
  | (t, a) :: rest =>
      (t + T,
        ((rest.takeWhile (fun c => decide (c.1 < t + T))).getLastD (t, a)).2) ::
        throttleEmit T (rest.dropWhile (fun c => decide (c.1 < t + T)))
termination_by l => l.length
decreasing_by
  simp only [List.length_cons]
  exact Nat.lt_succ_of_le ((List.dropWhile_sublist _).length_le)

/-- The body guard of `LiveMusicHelper.setPrompts` (App.tsx lines 251-263):
the throttled body transmits `setWeightedPrompts` only when a session exists
and the prompt list is non-empty. -/
def setPromptsBody (session : Option Nat) (prompts : List WeightedPrompt) :
    Option (List WeightedPrompt) :=
  match session with
  | none => none
  | some _ => if prompts = [] then none else some prompts

/-- Transmissions produced by a time-ordered sequence of `setPrompts` calls:
the throttle coalesces the calls into per-window emissions and each emission
passes through the body guard. -/
def setPromptsTransmissions (session : Option Nat) (T : ℚ)
    (calls : List (ℚ × List WeightedPrompt)) : List (ℚ × List WeightedPrompt) :=
  (throttleEmit T calls).filterMap
    (fun e => (setPromptsBody session e.2).map (fun p => (e.1, p)))

/-- An inbound audio chunk: the optional base64 payload field `data`. -/
structure AudioChunk where
  data : Option String
deriving DecidableEq

/-- A decoded audio buffer; the scheduler uses only its duration. -/
structure AudioBuffer where
  duration : ℚ
deriving DecidableEq

/-- Failures escaping `processAudioChunks`: reading `audioChunks[0].data` of
an empty message, or a decode failure of the payload (the decode call is not
guarded in the source, so the rejection escapes to the message handler). -/
inductive ProcError where
  | emptyChunks
  | decodeFailed
deriving DecidableEq

/-- `LiveMusicHelper.processAudioChunks` (App.tsx lines 283-309), parametric
in the decoder: `decode`/`decodeAudioData` are imported from `./audio`, which
is not in the repository snapshot; per the spec the decoder is a pure
transform that fails on a malformed payload, so it is taken as an arbitrary
fallible function.  Only the first chunk of the message is read; a missing or
empty (falsy) payload ends processing with no state change; on a successful
decode the buffer is scheduled, returning the new `nextStartTime` and the
assigned start time. -/
def processAudioChunks (dec : String → Except Unit AudioBuffer)
    (nst currentTime : ℚ) : List AudioChunk → Except ProcError (ℚ × Option ℚ)
  | [] => .error .emptyChunks
  | c :: _ =>
      match c.data with
      | none => .ok (nst, none)
      | some raw =>
          if raw = "" then .ok (nst, none)
          else
            match dec raw with
            | .error _ => .error .decodeFailed
            | .ok buf =>
                .ok ((scheduleChunk nst currentTime buf.duration).2,
                  some (scheduleChunk nst currentTime buf.duration).1)

/-- Effect of one inbound message on the helper: a failure escaping
`processAudioChunks` leaves `nextStartTime` untouched and schedules nothing;
each message is handled by an independent invocation of the handler. -/
def handleMessage (dec : String → Except Unit AudioBuffer)
    (nst currentTime : ℚ) (chunks : List AudioChunk) : ℚ × Option ℚ :=
  match processAudioChunks dec nst currentTime chunks with
  | .error _ => (nst, none)
  | .ok r => r

section Theorems

lemma scheduleChunk_keep (nst t d : ℚ) (hne : nst ≠ 0) (hle : t ≤ nst) :
    scheduleChunk nst t d = (nst, nst + d) := by
  have hcond : ¬(nst = 0 ∨ nst < t) := by
    rintro (h | h)
    · exact hne h
    · exact absurd h (not_lt.mpr hle)
  simp [scheduleChunk, hcond]

lemma scheduleTrace_cons_keep (nst t d : ℚ) (rest : List (ℚ × ℚ))
    (hne : nst ≠ 0) (hle : t ≤ nst) :
    scheduleTrace nst ((t, d) :: rest) = nst :: scheduleTrace (nst + d) rest := by
  simp [scheduleTrace, scheduleChunk_keep nst t d hne hle]

lemma scheduleTrace_head (nst : ℚ) (l : List (ℚ × ℚ))
    (hon : onSchedule nst l) (hne : l ≠ []) :
    (scheduleTrace nst l).get? 0 = some nst := by
  cases l with
  | nil => exact absurd rfl hne
  | cons c rest =>
      obtain ⟨t, d⟩ := c
      obtain ⟨h1, h2, _⟩ := hon
      rw [scheduleTrace_cons_keep nst t d rest h1 h2]
      rfl

/-- Claim C1: if every chunk of the sequence is processed while
`nextStartTime` is set and not in the past (no stall), the assigned start
times are exactly contiguous, each next start equal to the previous start
plus the previous buffer duration, and strictly increasing. -/
theorem c1_contiguous (nst : ℚ) (chunks : List (ℚ × ℚ))
    (hon : onSchedule nst chunks) (hd : ∀ c ∈ chunks, 0 < c.2)
    (i : ℕ) (s s₂ : ℚ)
    (h1 : (scheduleTrace nst chunks).get? i = some s)
    (h2 : (scheduleTrace nst chunks).get? (i + 1) = some s₂) :
    ∃ c, chunks.get? i = some c ∧ s₂ = s + c.2 ∧ s < s₂ := by
  induction chunks generalizing nst i s s₂ with
  | nil => simp [scheduleTrace] at h1
  | cons c rest ih =>
      obtain ⟨t, d⟩ := c
      obtain ⟨hne, hle, hon2⟩ := hon
      rw [scheduleTrace_cons_keep nst t d rest hne hle] at h1 h2
      cases i with
      | zero =>
          have hs : s = nst := by
            simpa using h1.symm
          cases rest with
          | nil => simp [scheduleTrace] at h2
          | cons c2 rest2 =>
              have hh := scheduleTrace_head (nst + d) (c2 :: rest2) hon2 (by simp)
              have hs2 : s₂ = nst + d := by
                rw [List.get?_cons_succ] at h2
                rw [hh] at h2
                exact (Option.some_inj.mp h2).symm
              have hdpos : 0 < d := hd (t, d) (List.mem_cons_self _ _)
              exact ⟨(t, d), rfl, by rw [hs, hs2], by rw [hs, hs2]; linarith⟩
      | succ j =>
          rw [List.get?_cons_succ] at h1 h2
          have := ih (nst + d) hon2
            (fun c hc => hd c (List.mem_cons_of_mem _ hc)) j s s₂ h1 h2
          obtain ⟨c, hc1, hc2, hc3⟩ := this
          exact ⟨c, by simpa using hc1, hc2, hc3⟩

/-- Claim C1 witness: two chunks processed on schedule from `nextStartTime = 1`
with unit durations give contiguous starts `1` and `2`. -/
theorem c1_contiguous_witness :
    ∃ c, ([((0.6 : ℚ), (1 : ℚ)), (1.4, 1)].get? 0) = some c ∧
      (2 : ℚ) = 1 + c.2 ∧ (1 : ℚ) < 2 :=
  c1_contiguous 1 [(0.6, 1), (1.4, 1)] (by norm_num [onSchedule])
    (by intro c hc; simp at hc; rcases hc with h | h <;> simp [h])
    0 1 2 (by norm_num [scheduleTrace, scheduleChunk, bufferTime])
    (by norm_num [scheduleTrace, scheduleChunk, bufferTime])

/-- Claim C2: whenever a chunk is scheduled while `nextStartTime` is unset or
already in the past relative to the hardware clock, its start time is
recomputed as `currentTime + bufferTime` (the fixed 0.5s pre-roll). -/
theorem c2_rebuffer (nst t d : ℚ) (h : nst = 0 ∨ nst < t) :
    (scheduleChunk nst t d).1 = t + bufferTime := by
  simp [scheduleChunk, if_pos h]

/-- Claim C2 witness at the concrete stalled state `nst = 0.2 < t = 3`. -/
theorem c2_rebuffer_witness :
    (scheduleChunk 0.2 3 1).1 = 3 + bufferTime :=
  c2_rebuffer 0.2 3 1 (Or.inr (by norm_num))

/-- Claim C3: `stop`, from any helper state, resets `nextStartTime` to the
unset sentinel, so the first chunk processed after a subsequent `play` is
scheduled at `currentTime + bufferTime` rather than at a time derived from the
pre-stop schedule. -/
theorem c3_stop_resets (s : HelperState) (t d : ℚ) :
    (stop s).nextStartTime = 0 ∧
    (scheduleChunk (play (stop s)).nextStartTime t d).1 = t + bufferTime := by
  refine ⟨rfl, ?_⟩
  have hplay : (play (stop s)).nextStartTime = 0 := by
    unfold play connect stop
    by_cases h : s.session.isSome <;> simp [h]
  rw [hplay]
  simp [scheduleChunk]

lemma connect_of_isSome (s : HelperState) (h : s.session.isSome) :
    connect s = (s, false) := by
  simp [connect, h]

lemma connect_fst_isSome (s : HelperState) : ((connect s).1).session.isSome := by
  by_cases h : s.session.isSome <;> simp [connect, h]

lemma connectSeq_snd_of_isSome (s : HelperState) (h : s.session.isSome) :
    ∀ n, (connectSeq s n).2 = 0 := by
  intro n
  induction n generalizing s with
  | zero => simp [connectSeq]
  | succ m ih =>
      simp only [connectSeq, connect_of_isSome s h]
      simpa using ih s h

/-- Claim C9: `connect` is idempotent.  A second call after a first returns
the same state and issues no second session open, and any sequence of
consecutive `connect` calls issues at most one session open in total. -/
theorem c9_connect_idempotent (s : HelperState) (n : Nat) :
    connect (connect s).1 = ((connect s).1, false) ∧
    (connectSeq s n).2 ≤ 1 := by
  constructor
  · exact connect_of_isSome _ (connect_fst_isSome s)
  · cases n with
    | zero => simp [connectSeq]
    | succ m =>
        simp only [connectSeq]
        rw [connectSeq_snd_of_isSome _ (connect_fst_isSome s) m]
        by_cases h : (connect s).2 <;> simp [h]

lemma smooth_bounds (prev s : ℚ) (h0 : 0 ≤ prev) (h1 : prev ≤ 1)
    (hs0 : 0 ≤ s) (hs1 : s ≤ 1) :
    0 ≤ prev + (s - prev) * 0.1 ∧ prev + (s - prev) * 0.1 ≤ 1 := by
  constructor <;> linarith

/-- Claim C5: one step of the velocity mapper keeps the smoothed signal
strength inside [0,1], for every velocity input and every previous smoothed
value in [0,1]. -/
theorem c5_signal_bounded (prev velocity : ℚ) (h0 : 0 ≤ prev) (h1 : prev ≤ 1) :
    0 ≤ velocityStep prev velocity ∧ velocityStep prev velocity ≤ 1 := by
  simp only [velocityStep]
  by_cases hband : 0.1 < velocity * 10 ∧ velocity * 10 < 2.5
  · rw [if_pos hband]
    by_cases hfast : 1.5 < velocity * 10
    · rw [if_pos hfast]
      exact smooth_bounds prev _ h0 h1 (le_max_left _ _)
        (max_le (by norm_num) (by linarith [hfast]))
    · rw [if_neg hfast]
      exact smooth_bounds prev _ h0 h1
        (le_min (by norm_num) (div_nonneg (by linarith [hband.1]) (by norm_num)))
        (min_le_left _ _)
  · rw [if_neg hband]
    exact smooth_bounds prev _ h0 h1 (le_max_left _ _)
      (max_le (by norm_num) (by linarith))

/-- Claim C5 witness at the resting state: previous value 0, velocity 0. -/
theorem c5_signal_bounded_witness :
    0 ≤ velocityStep 0 0 ∧ velocityStep 0 0 ≤ 1 :=
  c5_signal_bounded 0 0 (by norm_num) (by norm_num)

lemma out_of_band_step (prev w : ℚ)
    (hw : w * 10 ≤ 0.1 ∨ 2.5 ≤ w * 10) (h0 : 0 ≤ prev) :
    0 ≤ velocityStep prev w ∧ velocityStep prev w ≤ prev := by
  have hband : ¬(0.1 < w * 10 ∧ w * 10 < 2.5) := by
    rcases hw with h | h <;> intro hc <;> [linarith [hc.1]; linarith [hc.2]]
  simp only [velocityStep, if_neg hband]
  by_cases hp : 0.015 ≤ prev
  · rw [max_eq_right (by linarith)]
    constructor <;> linarith
  · rw [max_eq_left (by linarith)]
    constructor <;> linarith

/-- Claim C6: over any velocity sequence whose scaled values stay outside the
sweet-spot band, the smoothed signal is monotonically non-increasing and never
negative; moreover the out-of-band step depends only on the previous smoothed
value, not on the raw velocity. -/
theorem c6_out_of_band_decay (prev : ℚ) (ws : List ℚ)
    (hout : ∀ w ∈ ws, w * 10 ≤ 0.1 ∨ 2.5 ≤ w * 10) (h0 : 0 ≤ prev) :
    List.Chain' (fun a b => b ≤ a) (prev :: velocityTrace prev ws) ∧
    (∀ x ∈ velocityTrace prev ws, 0 ≤ x) ∧
    (∀ p w₁ w₂ : ℚ, w₁ * 10 ≤ 0.1 ∨ 2.5 ≤ w₁ * 10 →
      w₂ * 10 ≤ 0.1 ∨ 2.5 ≤ w₂ * 10 → velocityStep p w₁ = velocityStep p w₂) := by
  have hind : ∀ p : ℚ, 0 ≤ p → ∀ l : List ℚ,
      (∀ w ∈ l, w * 10 ≤ 0.1 ∨ 2.5 ≤ w * 10) →
      List.Chain' (fun a b => b ≤ a) (p :: velocityTrace p l) ∧
      (∀ x ∈ velocityTrace p l, 0 ≤ x) := by
    intro p hp l
    induction l generalizing p with
    | nil => simp [velocityTrace]
    | cons w ws ih =>
        intro hl
        have hw := hl w (by simp)
        have hstep := out_of_band_step p w hw hp
        have hrest := ih (velocityStep p w) hstep.1
          (fun x hx => hl x (List.mem_cons_of_mem _ hx))
        refine ⟨?_, ?_⟩
        · rw [velocityTrace]
          exact List.chain'_cons.mpr ⟨hstep.2, hrest.1⟩
        · intro x hx
          rw [velocityTrace] at hx
          rcases List.mem_cons.mp hx with h | h
          · exact h ▸ hstep.1
          · exact hrest.2 x h
  refine ⟨(hind prev h0 ws hout).1, (hind prev h0 ws hout).2, ?_⟩
  intro p w₁ w₂ hw1 hw2
  have hb1 : ¬(0.1 < w₁ * 10 ∧ w₁ * 10 < 2.5) := by
    rcases hw1 with h | h <;> intro hc <;> [linarith [hc.1]; linarith [hc.2]]
  have hb2 : ¬(0.1 < w₂ * 10 ∧ w₂ * 10 < 2.5) := by
    rcases hw2 with h | h <;> intro hc <;> [linarith [hc.1]; linarith [hc.2]]
  simp only [velocityStep, if_neg hb1, if_neg hb2]

/-- Claim C6 witness: starting from strength 1 with two out-of-band samples,
the trace decays without going negative. -/
theorem c6_out_of_band_decay_witness :
    List.Chain' (fun a b => b ≤ a) ((1 : ℚ) :: velocityTrace 1 [0, 0.3]) ∧
    (∀ x ∈ velocityTrace (1 : ℚ) [0, 0.3], 0 ≤ x) ∧
    (∀ p w₁ w₂ : ℚ, w₁ * 10 ≤ 0.1 ∨ 2.5 ≤ w₁ * 10 →
      w₂ * 10 ≤ 0.1 ∨ 2.5 ≤ w₂ * 10 → velocityStep p w₁ = velocityStep p w₂) :=
  c6_out_of_band_decay 1 [0, 0.3]
    (by intro w hw; simp at hw; rcases hw with h | h <;> subst h <;> norm_num)
    (by norm_num)

/-- Claim C7: `setVolume v` never sets the gain instantaneously: it only
issues the exponential-approach command with target exactly `v` (no internal
clamping), start time the current hardware time and time constant 0.1; the
realized gain curve is continuous (no step) and tends to `v`. -/
theorem c7_setVolume_ramp (val now g0 : ℝ) :
    setVolume val now = ⟨val, now, 0.1⟩ ∧
    Continuous (fun t => rampGain (setVolume val now) g0 t) ∧
    Filter.Tendsto (fun t => rampGain (setVolume val now) g0 t)
      Filter.atTop (nhds val) := by
  refine ⟨rfl, ?_, ?_⟩
  · simp only [rampGain, setVolume]
    fun_prop
  · have hdiv : Filter.Tendsto (fun t : ℝ => (t - now) / 0.1)
        Filter.atTop Filter.atTop := by
      apply Filter.Tendsto.atTop_div_const (by norm_num)
      simpa using Filter.tendsto_atTop_add_const_right Filter.atTop (-now)
        Filter.tendsto_id
    have hneg : Filter.Tendsto (fun t : ℝ => -((t - now) / 0.1))
        Filter.atTop Filter.atBot := Filter.tendsto_neg_atTop_atBot.comp hdiv
    have hexp : Filter.Tendsto (fun t : ℝ => Real.exp (-((t - now) / 0.1)))
        Filter.atTop (nhds 0) := Real.tendsto_exp_atBot.comp hneg
    have hmul := Filter.Tendsto.const_mul (g0 - val) hexp
    have hadd := Filter.Tendsto.const_add val hmul
    simpa [rampGain, setVolume] using hadd

lemma dropWhile_head_false (p : α → Bool) (l : List α) (x : α) (xs : List α)
    (h : l.dropWhile p = x :: xs) : p x = false := by
  induction l with
  | nil => simp [List.dropWhile] at h
  | cons a as ih =>
      cases hpa : p a with
      | true =>
          rw [List.dropWhile_cons_of_pos hpa] at h
          exact ih h
      | false =>
          rw [List.dropWhile_cons_of_neg (by simp [hpa])] at h
          injection h with h1 h2
          rw [← h1]
          exact hpa

lemma throttleEmit_spaced (T : ℚ) (calls : List (ℚ × α)) :
    List.Chain' (fun a b => a.1 + T ≤ b.1) (throttleEmit T calls) := by
  suffices h : ∀ (n : Nat) (l : List (ℚ × α)), l.length ≤ n →
      List.Chain' (fun a b => a.1 + T ≤ b.1) (throttleEmit T l) from
    h calls.length calls le_rfl
  intro n
  induction n with
  | zero =>
      intro l hl
      obtain rfl : l = [] := List.length_eq_zero.mp (Nat.le_zero.mp hl)
      simp [throttleEmit]
  | succ m ih =>
      intro l hl
      match l with
      | [] => simp [throttleEmit]
      | (t, a) :: rest =>
          rw [throttleEmit]
          have hlen : (rest.dropWhile (fun c => decide (c.1 < t + T))).length ≤ m := by
            have h1 := (List.dropWhile_sublist
              (l := rest) (fun c => decide (c.1 < t + T))).length_le
            have h2 : rest.length ≤ m := by simpa using Nat.succ_le_succ_iff.mp hl
            exact Nat.le_trans h1 h2
          refine List.chain'_cons'.mpr ⟨?_, ih _ hlen⟩
          intro b hb
          cases hr : rest.dropWhile (fun c => decide (c.1 < t + T)) with
          | nil =>
              rw [hr] at hb
              simp [throttleEmit] at hb
          | cons c2 r2 =>
              obtain ⟨t2, a2⟩ := c2
              rw [hr, throttleEmit] at hb
              simp only [List.head?_cons, Option.mem_def, Option.some_inj] at hb
              have hfalse := dropWhile_head_false _ rest _ _ hr
              have hge : t + T ≤ t2 := not_lt.mp (by simpa using hfalse)
              rw [← hb]
              show t + T + T ≤ t2 + T
              linarith

/-- Claim C4: calls to the throttled `setPrompts` falling inside one throttle
window produce exactly one transmitted `setWeightedPrompts` call carrying the
prompt list of the last invocation, and any two transmissions are at least
the throttle interval apart. -/
theorem c4_throttle_coalesce (T t0 : ℚ) (p0 : List WeightedPrompt)
    (rest : List (ℚ × List WeightedPrompt)) (k : Nat)
    (hw : ∀ c ∈ rest, c.1 < t0 + T)
    (hne : (rest.getLastD (t0, p0)).2 ≠ []) :
    setPromptsTransmissions (some k) T ((t0, p0) :: rest) =
      [(t0 + T, (rest.getLastD (t0, p0)).2)] ∧
    ∀ calls : List (ℚ × List WeightedPrompt),
      List.Chain' (fun a b => a.1 + T ≤ b.1) (throttleEmit T calls) := by
  refine ⟨?_, fun calls => throttleEmit_spaced T calls⟩
  have htake : rest.takeWhile (fun c => decide (c.1 < t0 + T)) = rest :=
    List.takeWhile_eq_self_iff.mpr (fun c hc => by simpa using hw c hc)
  have hdrop : rest.dropWhile (fun c => decide (c.1 < t0 + T)) = [] :=
    List.dropWhile_eq_nil_iff.mpr (fun c hc => by simpa using hw c hc)
  rw [setPromptsTransmissions, throttleEmit, htake, hdrop]
  have hne2 : (rest.getLast?.getD (t0, p0)).2 ≠ [] := by
    simpa [List.getLastD_eq_getLast?] using hne
  simp [throttleEmit, setPromptsBody, hne2]

/-- Claim C4 witness: two calls 100ms apart inside a 500ms window, connected,
transmit exactly once, carrying the second prompt list. -/
theorem c4_throttle_coalesce_witness :
    setPromptsTransmissions (some 0) 500
        [(0, [⟨"a", 1⟩]), (100, [⟨"b", 2⟩])] =
      [(500, ([((100 : ℚ), [(⟨"b", 2⟩ : WeightedPrompt)])].getLastD
        (0, [⟨"a", 1⟩])).2)] ∧
    ∀ calls : List (ℚ × List WeightedPrompt),
      List.Chain' (fun a b => a.1 + (500 : ℚ) ≤ b.1) (throttleEmit 500 calls) := by
  have h := c4_throttle_coalesce 500 0 [⟨"a", 1⟩] [(100, [⟨"b", 2⟩])] 0
    (by intro c hc; simp at hc; rw [hc]; norm_num)
    (by simp [List.getLastD])
  simpa using h

/-- Claim C8: a chunk whose payload fails to decode leaves `nextStartTime`
unchanged and schedules nothing, and the handling of any later message is
exactly as if the bad chunk had never arrived. -/
theorem c8_decode_failure_isolated (dec : String → Except Unit AudioBuffer)
    (nst t t2 : ℚ) (raw : String) (more msg2 : List AudioChunk)
    (hraw : raw ≠ "") (hdec : dec raw = .error ()) :
    handleMessage dec nst t (⟨some raw⟩ :: more) = (nst, none) ∧
    handleMessage dec (handleMessage dec nst t (⟨some raw⟩ :: more)).1 t2 msg2 =
      handleMessage dec nst t2 msg2 := by
  have h1 : handleMessage dec nst t (⟨some raw⟩ :: more) = (nst, none) := by
    simp [handleMessage, processAudioChunks, hraw, hdec]
  exact ⟨h1, by rw [h1]⟩

/-- Claim C8 witness: an always-failing decoder on payload "x" leaves the
clock at 1 and a following empty message is handled identically. -/
theorem c8_decode_failure_isolated_witness :
    handleMessage (fun _ => .error ()) 1 2 [⟨some "x"⟩] = (1, none) ∧
    handleMessage (fun _ => .error ())
        (handleMessage (fun _ => .error ()) 1 2 [⟨some "x"⟩]).1 3 [] =
      handleMessage (fun _ => .error ()) 1 3 [] :=
  c8_decode_failure_isolated (fun _ => .error ()) 1 2 3 "x" [] []
    (by decide) rfl

/-- Claim C10: `processAudioChunks` reads only the first chunk of the
message, so any further chunks are silently discarded, and a first chunk with
missing payload data makes the whole message a no-op with no state change. -/
theorem c10_first_chunk_only (dec : String → Except Unit AudioBuffer)
    (nst t : ℚ) (c : AudioChunk) (rest : List AudioChunk) :
    processAudioChunks dec nst t (c :: rest) = processAudioChunks dec nst t [c] ∧
    processAudioChunks dec nst t (⟨none⟩ :: rest) = .ok (nst, none) :=
  ⟨rfl, rfl⟩

end Theorems

end EarCord
